import Mathlib

/-!
# Verification of the WinGetPro core

This file shallowly embeds the core logic of `wingetpro.py` (command runner,
table parser, pin registry, row normalizer, sort engine, task queue, selection
handling) and proves or refutes the frozen claims about it.

Modelling conventions:
* Python strings are `List Char` (`Str` below); Python's code-point comparison
  and slicing translate directly.
* Python dictionaries are ordered association lists with in-place overwrite
  (`pyDictSet`), matching insertion-order semantics.
* The subprocess boundary (`shutil.which`, `subprocess.run`) is an explicit
  oracle (`WingetEnv`); `subprocess.run`'s possible outcomes (completion,
  `TimeoutExpired`, any other exception) are the constructors of
  `ProcOutcome`, so the `try/except` ladder of `run_winget` becomes a total
  match.
* `str.splitlines` is modelled as splitting on `'\n'` only (the source is fed
  text-mode output where that is the terminator).
-/

/-- Python strings are modelled as lists of characters. -/
abbrev Str := List Char

/-- Whitespace characters of Python's `str.strip` / regex `\s` (ASCII range). -/
def isPyWs (c : Char) : Bool :=
  c = ' ' || c = '\t' || c = '\n' || c = '\r' || c = '\x0b' || c = '\x0c'

/-- `str.lstrip()`. -/
def pyLStrip (s : Str) : Str := s.dropWhile isPyWs

/-- `str.rstrip()`. -/
def pyRStrip (s : Str) : Str := (s.reverse.dropWhile isPyWs).reverse

/-- `str.strip()`. -/
def pyStrip (s : Str) : Str := pyLStrip (pyRStrip s)

/-- `str.lower()` (character-wise). -/
def pyLower (s : Str) : Str := s.map Char.toLower

/-- Worker for `splitLines`: accumulates the current line (reversed). -/
def splitLinesGo : Str → Str → List Str
  | [], acc => if acc.isEmpty then [] else [acc.reverse]
  | c :: rest, acc =>
    if c = '\n' then
      match rest with
      | [] => [acc.reverse]
      | _ :: _ => acc.reverse :: splitLinesGo rest []
    else splitLinesGo rest (c :: acc)

/-- `str.splitlines()` for `'\n'`-terminated text: no trailing empty line for a
final newline, `""` gives `[]`. -/
def splitLines (s : Str) : List Str := splitLinesGo s []

/-- `str.find(sub)` on the remaining text: index of the first occurrence. -/
def findAux : Str → Str → Option Nat
  | l, sub =>
    if sub.isPrefixOf l then some 0
    else
      match l with
      | [] => none
      | _ :: t => (findAux t sub).map (· + 1)

/-- `str.find(sub, start)`, absolute index of the first occurrence at or after
`start` (`none` for Python's `-1`). -/
def pyFindFrom (l sub : Str) (start : Nat) : Option Nat :=
  (findAux (l.drop start) sub).map (· + start)

/-- `sub in l` (substring containment). -/
def strContains (l sub : Str) : Bool := (findAux l sub).isSome

/-- `" ".join(parts)`. -/
def joinSpace : List Str → Str
  | [] => []
  | [x] => x
  | x :: y :: rest => x ++ ' ' :: joinSpace (y :: rest)

/-- Worker for `re.split(r"\s{2,}", s)`: `cur` is the current token reversed,
`ws` the pending whitespace run reversed.  A maximal whitespace run of length
at least two is a delimiter; shorter runs stay inside the token. -/
def splitWs2Go : Str → Str → Str → List Str
  | [], cur, ws => if 2 ≤ ws.length then [cur.reverse, []] else [(ws ++ cur).reverse]
  | c :: rest, cur, ws =>
    if isPyWs c then splitWs2Go rest cur (c :: ws)
    else if 2 ≤ ws.length then cur.reverse :: splitWs2Go rest [c] []
    else splitWs2Go rest (c :: (ws ++ cur)) []

/-- `re.split(r"\s{2,}", s)`. -/
def splitWs2 (s : Str) : List Str := splitWs2Go s [] []

/-- `[c.strip() for c in re.split(r"\s{2,}", header_line.strip()) if c.strip()]`
(source line 122). -/
def colNames (header : Str) : List Str :=
  ((splitWs2 (pyStrip header)).map pyStrip).filter (fun t => !t.isEmpty)

/-- The start-offset loop of `parse_winget_table` (source lines 127-137):
`header_line.find(name, search_from)`, falling back to a search from 0 and
then to `search_from` itself. -/
def computeStarts (header : Str) : List Str → Nat → List Nat
  | [], _ => []
  | name :: rest, searchFrom =>
    let pos :=
      match pyFindFrom header name searchFrom with
      | some p => p
      | none =>
        match pyFindFrom header name 0 with
        | some p => p
        | none => searchFrom
    pos :: computeStarts header rest (pos + name.length)

/-- The slice-building loop (source lines 140-144): each column ends where the
next starts; the last column ends at the sentinel offset `10_000`. -/
def buildSlices : List (Str × Nat) → List (Str × Nat × Nat)
  | [] => []
  | [(name, s)] => [(name, s, 10000)]
  | (name, s) :: (name2, s2) :: rest => (name, s, s2) :: buildSlices ((name2, s2) :: rest)

/-- Python slicing `ln[s:e]` for `0 ≤ s`, `0 ≤ e` (clamped at the ends). -/
def pySlice (ln : Str) (s e : Nat) : Str := (ln.take e).drop s

/-- `d[k] = v` on a Python dict modelled as an ordered association list:
overwrite in place if the key exists, else append. -/
def pyDictSet {V : Type} : List (Str × V) → Str → V → List (Str × V)
  | [], k, v => [(k, v)]
  | (k0, v0) :: rest, k, v =>
    if k0 = k then (k0, v) :: rest else (k0, v0) :: pyDictSet rest k v

/-- `d.get(k)` on a Python dict modelled as an association list. -/
def pyDictGet {V : Type} (d : List (Str × V)) (k : Str) : Option V :=
  (d.find? (fun kv => decide (kv.1 = k))).map (·.2)

/-- `r.get(k, "")`. -/
def pyGetD (d : List (Str × Str)) (k : Str) : Str := (pyDictGet d k).getD []

/-- Python's `a or b` on strings: `a` if non-empty, else `b`. -/
def pyOrS (a b : Str) : Str := if a.isEmpty then b else a

/-- One raw table row: the inner loop of source lines 153-155. -/
def mkRow (slices : List (Str × Nat × Nat)) (ln : Str) : List (Str × Str) :=
  slices.foldl (fun d nse => pyDictSet d nse.1 (pyStrip (pySlice ln nse.2.1 nse.2.2))) []

/-- Header detection (source line 103): contains `"Id"`, contains `"Name"` or
`"Package"`, and does not contain `"---"`. -/
def isHeaderLine (l : Str) : Bool :=
  strContains l ("Id".data) &&
    (strContains l ("Name".data) || strContains l ("Package".data)) &&
    !strContains l ("---".data)

/-- A line whose stripped form starts with three dashes (the separator test of
source lines 111-115 reduces to this). -/
def isDashStart (l : Str) : Bool := List.isPrefixOf ("---".data) (pyStrip l)

/-- The `"no installed package"` stop marker (source line 149). -/
def isNoResultsLine (l : Str) : Bool :=
  List.isPrefixOf ("no installed package".data) (pyLower (pyStrip l))

/-- Source line 96: non-blank lines of the output. -/
def linesOf (output : Str) : List Str :=
  (splitLines output).filter (fun l => !(pyStrip l).isEmpty)

/-- Source lines 101-105: index of the first header line. -/
def findHeaderIdx (lines : List Str) : Option Nat := lines.findIdx? isHeaderLine

/-- Source lines 110-117: index of the first separator line after the header. -/
def findDelimIdx (lines : List Str) (hi : Nat) : Option Nat :=
  ((lines.drop (hi + 1)).findIdx? isDashStart).map (· + (hi + 1))

/-- The column layout the parser derives from a header line. -/
def tableLayout (header : Str) : List (Str × Nat × Nat) :=
  buildSlices ((colNames header).zip (computeStarts header (colNames header) 0))

/-- `parse_winget_table` (source lines 86-159). -/
def parse_winget_table (output : Str) : List (List (Str × Str)) :=
  let lines := linesOf output
  match findHeaderIdx lines with
  | none => []
  | some hi =>
    match findDelimIdx lines hi with
    | none => []
    | some di =>
      let hl := lines.getD hi []
      if (colNames hl).isEmpty then []
      else
        let slices := tableLayout hl
        let body := (lines.drop (di + 1)).takeWhile (fun l => !isNoResultsLine l)
        ((body.filter (fun l => !isDashStart l)).map (mkRow slices)).filter
          (fun r => r.any (fun kv => !kv.2.isEmpty))

/-- Outcomes of `subprocess.run`: normal completion, `TimeoutExpired`, or any
other exception (carrying its message), covering the `try/except` ladder. -/
inductive ProcOutcome where
  | completed (returncode : Int) (stdout stderr : Str)
  | timedOut
  | failed (message : Str)

/-- The process environment seen by `run_winget`: `shutil.which("winget")` and
the behaviour of `subprocess.run` on a command line. -/
structure WingetEnv where
  whichWinget : Option Str
  runProcess : List Str → Option Nat → ProcOutcome

/-- The "winget not found" diagnostic (source line 65). -/
def notFoundMsg : Str :=
  ("winget not found in PATH. Install 'App Installer' from Microsoft Store.").data

/-- `run_winget` (source lines 59-83). -/
def run_winget (env : WingetEnv) (args : List Str) (timeLimit : Option Nat) : Int × Str :=
  match env.whichWinget with
  | none => (127, notFoundMsg)
  | some exe =>
    let cmd := exe :: args
    match env.runProcess cmd timeLimit with
    | .completed rc stdout stderr =>
      (rc, pyStrip (stdout ++ (if stderr.isEmpty then [] else '\n' :: stderr)))
    | .timedOut => (124, ("Timeout running: ").data ++ joinSpace cmd)
    | .failed e => (1, ("Error running: ").data ++ joinSpace cmd ++ '\n' :: e)

/-- The normalized pin record built by `get_pins` (source lines 177-181); the
source stores it as a dict that always carries these three keys. -/
structure PinEntry where
  source : Str
  version : Str
  pinType : Str
deriving DecidableEq

/-- `r.get("Id", "") or r.get("ID", "") or ""` (source line 174). -/
def pinIdOf (r : List (Str × Str)) : Str :=
  pyOrS (pyGetD r ("Id".data)) (pyGetD r ("ID".data))

/-- The pin record of one raw row (source lines 177-181). -/
def pinEntryOf (r : List (Str × Str)) : PinEntry :=
  { source := pyGetD r ("Source".data)
    version := pyGetD r ("Version".data)
    pinType := pyOrS (pyGetD r ("Pin type".data))
      (pyOrS (pyGetD r ("Pin".data)) (pyGetD r ("Type".data))) }

/-- The row loop of `get_pins` (source lines 172-181): skip empty ids, later
rows overwrite earlier ones with the same id. -/
def pinsOfTable (table : List (List (Str × Str))) : List (Str × PinEntry) :=
  table.foldl
    (fun pins r =>
      if (pinIdOf r).isEmpty then pins else pyDictSet pins (pinIdOf r) (pinEntryOf r))
    []

/-- `get_pins` (source lines 162-182). -/
def get_pins (env : WingetEnv) : List (Str × PinEntry) :=
  let res := run_winget env [("pin".data), ("list".data)] none
  if res.1 ≠ 0 then [] else pinsOfTable (parse_winget_table res.2)

/-- The `PackageRow` dataclass (source lines 40-49). -/
structure PackageRow where
  name : Str := []
  id : Str := []
  version : Str := []
  available : Str := []
  source : Str := []
  pinned : Str := []
  pin_type : Str := []
  pin_version : Str := []
deriving DecidableEq

/-- `WingetGui._to_rows` (source lines 746-766), with the pin snapshot passed
explicitly. -/
def to_rows (pins : List (Str × PinEntry)) (tableRows : List (List (Str × Str))) :
    List PackageRow :=
  tableRows.map (fun r =>
    let pid := pyOrS (pyGetD r ("Id".data)) (pyGetD r ("ID".data))
    { name := pyOrS (pyGetD r ("Name".data)) (pyGetD r ("Package".data))
      id := pid
      version := pyGetD r ("Version".data)
      available := pyGetD r ("Available".data)
      source := pyGetD r ("Source".data)
      pinned := if (pyDictGet pins pid).isSome then ("Yes".data) else ("No".data)
      pin_type := match pyDictGet pins pid with | some e => e.pinType | none => []
      pin_version := match pyDictGet pins pid with | some e => e.version | none => [] })

/-- The sort keys produced by `WingetGui._cell_key`: a Python tuple for the
version-like columns (with `text = none` modelling the two-element tuple
`(0, ())` of the empty-string case), an integer for the `Pinned` column, and a
lowercased string otherwise.  Cross-constructor comparison never occurs inside
one column sort; Python would raise `TypeError` on it, the model orders the
constructors by an arbitrary tag to keep the relation total. -/
inductive CKey where
  | tup (d : Nat) (nums : List Nat) (text : Option Str)
  | int (n : Nat)
  | str (s : Str)
deriving DecidableEq

/-- Lexicographic `<` on Python lists/tuples of comparables: a strict prefix is
smaller. -/
def lexLtB {α : Type} [DecidableEq α] (lt : α → α → Bool) : List α → List α → Bool
  | _, [] => false
  | [], _ :: _ => true
  | a :: as, b :: bs => lt a b || (decide (a = b) && lexLtB lt as bs)

/-- `<` on characters (Python compares code points). -/
def charLtB (a b : Char) : Bool := decide (a < b)

/-- `<` on naturals. -/
def natLtB (a b : Nat) : Bool := decide (a < b)

/-- `<` between the optional third tuple component: the absent component (the
two-element tuple) compares below any present one, as a shorter Python tuple
that is a prefix of a longer one does. -/
def optLtB : Option Str → Option Str → Bool
  | none, none => false
  | none, some _ => true
  | some _, none => false
  | some a, some b => lexLtB charLtB a b

/-- Constructor tag used only for the never-occurring cross-type case. -/
def CKey.tag : CKey → Nat
  | .tup _ _ _ => 0
  | .int _ => 1
  | .str _ => 2

/-- Python `<` on sort keys. -/
def CKey.ltB : CKey → CKey → Bool
  | .tup d1 n1 s1, .tup d2 n2 s2 =>
    natLtB d1 d2 ||
      (decide (d1 = d2) && (lexLtB natLtB n1 n2 || (decide (n1 = n2) && optLtB s1 s2)))
  | .int a, .int b => natLtB a b
  | .str a, .str b => lexLtB charLtB a b
  | a, b => natLtB a.tag b.tag

/-- Worker for `re.findall(r"\d+", s)` followed by `int(...)`: the pending
digit run is carried as its numeric value. -/
def digitRunsGo : Str → Option Nat → List Nat
  | [], none => []
  | [], some n => [n]
  | c :: rest, acc =>
    if c.isDigit then digitRunsGo rest (some (acc.getD 0 * 10 + (c.toNat - ('0').toNat)))
    else
      match acc with
      | none => digitRunsGo rest none
      | some n => n :: digitRunsGo rest none

/-- `[int(n) for n in re.findall(r"\d+", s)]`. -/
def digitRuns (s : Str) : List Nat := digitRunsGo s none

/-- `WingetGui._version_key` (source lines 611-624). -/
def version_key (s : Str) : CKey :=
  if s.isEmpty then .tup 0 [] none
  else
    let t := pyStrip s
    let nums := digitRuns t
    if !nums.isEmpty then .tup 1 nums (some (pyLower t)) else .tup 0 [] (some (pyLower t))

/-- `WingetGui._cell_key` (source lines 626-637). -/
def cell_key (col : Str) (value : Str) : CKey :=
  let v := pyStrip value
  if col = ("Version".data) ∨ col = ("Available".data) ∨ col = ("PinVersion".data) then
    version_key v
  else if col = ("Pinned".data) then .int (if pyLower v = ("yes".data) then 0 else 1)
  else .str (pyLower v)

/-- The column-index dictionary of `_sort_tree` (source lines 643-644),
defaulting to 0. -/
def colIndexOf (col : Str) : Nat :=
  if col = ("Name".data) then 0
  else if col = ("Id".data) then 1
  else if col = ("Version".data) then 2
  else if col = ("Available".data) then 3
  else if col = ("Source".data) then 4
  else if col = ("Pinned".data) then 5
  else if col = ("PinType".data) then 6
  else if col = ("PinVersion".data) then 7
  else 0

/-- One displayed row: the tuple of cell strings of a tree item. -/
abbrev RowVals := List Str

/-- `vals[col_index] if col_index < len(vals) else ""` (source line 650). -/
def rowCell (col : Str) (vals : RowVals) : Str := vals.getD (colIndexOf col) []

/-- The ordering `list.sort(key=..., reverse=False)` establishes: `a` may stay
before `b` iff `key(b) < key(a)` is false. -/
def rowLe (col : Str) (a b : RowVals) : Prop :=
  CKey.ltB (cell_key col (rowCell col b)) (cell_key col (rowCell col a)) = false

instance rowLeDecidable (col : Str) : DecidableRel (rowLe col) := fun _ _ =>
  inferInstanceAs (Decidable (_ = false))

/-- `WingetGui._sort_tree` (source lines 639-656) as a function on the
displayed row list: a stable sort by the column key; `reverse=True` is
CPython's reverse-sort-reverse, which keeps equal keys in original order. -/
def sort_tree (col : Str) (rev : Bool) (rows : List RowVals) : List RowVals :=
  if rev then (List.insertionSort (rowLe col) rows.reverse).reverse
  else List.insertionSort (rowLe col) rows

/-- The sorting state of the GUI (source lines 214-216). -/
structure SortState where
  sortCol : Str
  sortReverse : Bool
  sortReverseByCol : List (Str × Bool)
deriving DecidableEq

/-- The initial sorting state set in `__init__`. -/
def initSortState : SortState :=
  { sortCol := ("Name".data), sortReverse := false, sortReverseByCol := [] }

/-- `d.get(col, False)` on the per-column toggle dictionary. -/
def revFor (st : SortState) (col : Str) : Bool :=
  (pyDictGet st.sortReverseByCol col).getD false

/-- `WingetGui._on_sort` (source lines 601-609): the direction used for this
click and the state/display after it. -/
def on_sort (st : SortState) (col : Str) (rows : List RowVals) :
    SortState × List RowVals :=
  let reverse := revFor st col
  ({ sortCol := col
     sortReverse := reverse
     sortReverseByCol := pyDictSet st.sortReverseByCol col (!reverse) },
   sort_tree col reverse rows)

/-- A sequence of header clicks applied to the current display. -/
def clicksRun (st : SortState) (rows : List RowVals) : List Str → SortState × List RowVals
  | [] => (st, rows)
  | c :: cs => clicksRun (on_sort st c rows).1 (on_sort st c rows).2 cs

/-- The events `_run_many`'s worker puts on the queue (source lines 877-894),
plus the unconditional end-of-run refresh trigger. -/
inductive WEvent where
  | statusEv (text : Str)
  | logEv (text : Str)
  | doneEv
  | refreshEv
deriving DecidableEq

/-- The status text `f"{title} ({i}/{total}): winget {' '.join(cmd)}"`. -/
def statusText (title : Str) (i total : Nat) (cmd : List Str) : Str :=
  title ++ (" (").data ++ (Nat.repr i).data ++ ("/").data ++ (Nat.repr total).data ++
    ("): winget ").data ++ joinSpace cmd

/-- The log text `f"{prefix}\n{out}\n"` with `prefix = "$ winget " + " ".join(cmd)`. -/
def logText (cmd : List Str) (out : Str) : Str :=
  ("$ winget ").data ++ joinSpace cmd ++ '\n' :: (out ++ ['\n'])

/-- The per-command loop of `_run_many`'s worker: one status and one log event
per command, indexed from 1. -/
def runManyGo (runner : List Str → Int × Str) (title : Str) (total : Nat) :
    List (List Str) → Nat → List WEvent
  | [], _ => []
  | cmd :: rest, i =>
    .statusEv (statusText title i total cmd) ::
      .logEv (logText cmd (runner cmd).2) :: runManyGo runner title total rest (i + 1)

/-- `WingetGui._run_many` (source lines 877-894) as the ordered event stream of
one run; `runner` is the behaviour of `run_winget` on each argument list. -/
def run_many (runner : List Str → Int × Str) (title : Str) (cmdLists : List (List Str))
    (refreshAfter : Bool) : List WEvent :=
  runManyGo runner title (max 1 cmdLists.length) cmdLists 1 ++
    (if refreshAfter then [.statusEv (("Refreshing...").data)] else []) ++
    [.doneEv, .refreshEv]

/-- Recognise a log event. -/
def isLogEv : WEvent → Bool
  | .logEv _ => true
  | _ => false

/-- Recognise a completion event. -/
def isDoneEv : WEvent → Bool
  | .doneEv => true
  | _ => false

/-- Extract a log event's payload. -/
def logTextOf : WEvent → Option Str
  | .logEv t => some t
  | _ => none

/-- The id-collection comprehension of `_selected_ids` (source lines 781-784):
`vals[1]` of every selected item with at least two values and a truthy id. -/
def rawSelectedIds (selection : List (List Str)) : List Str :=
  (selection.filter (fun vals => decide (2 ≤ vals.length) && !(vals.getD 1 []).isEmpty)).map
    (fun vals => vals.getD 1 [])

/-- The seen-set deduplication loop of `_selected_ids` (source lines 786-792). -/
def dedupSeenGo : List Str → List Str → List Str
  | [], _ => []
  | x :: xs, seen =>
    if x ∈ seen then dedupSeenGo xs seen else x :: dedupSeenGo xs (x :: seen)

/-- `WingetGui._selected_ids` (source lines 779-792). -/
def selected_ids (selection : List (List Str)) : List Str :=
  dedupSeenGo (rawSelectedIds selection) []

/-- Claim C3's version-key formula taken literally: `(1, digit runs, lowercased
original)` when a digit run exists, `(0, (), lowercased original)` otherwise,
on the raw value. -/
def claimVersionKey (s : Str) : CKey :=
  if !(digitRuns s).isEmpty then .tup 1 (digitRuns s) (some (pyLower s))
  else .tup 0 [] (some (pyLower s))

/-- Claim C3 amended: the same formula on the trimmed value, with the trimmed
empty string mapped to the two-element key `(0, ())`. -/
def claimVersionKeyAmended (s : Str) : CKey :=
  let t := pyStrip s
  if !(digitRuns t).isEmpty then .tup 1 (digitRuns t) (some (pyLower t))
  else if t.isEmpty then .tup 0 [] none
  else .tup 0 [] (some (pyLower t))

/-- Claim C7's combined-output formula taken literally: stdout, stderr appended
after a newline when non-empty, and only *trailing* whitespace trimmed. -/
def claimCombinedOutput (stdout stderr : Str) : Str :=
  pyRStrip (stdout ++ (if stderr.isEmpty then [] else '\n' :: stderr))

/-- First-occurrence-preserving deduplication, the order-of-first-occurrence
characterisation used to state claim C10. -/
def firstOccDedup : List Str → List Str
  | [] => []
  | x :: xs => x :: firstOccDedup (xs.filter (fun y => y ≠ x))
termination_by l => l.length
decreasing_by
  simp only [List.length_cons]
  exact Nat.lt_succ_of_le (List.length_filter_le _ _)

/-- `OccursFrom h k toks`: the tokens occur in `h`, in order, pairwise
disjointly, all at offsets at least `k`. -/
def OccursFrom (h : Str) : Nat → List Str → Prop
  | _, [] => True
  | k, n :: rest => ∃ p, k ≤ p ∧ n <+: h.drop p ∧ OccursFrom h (p + n.length) rest

/-- Concrete pin mapping used in witnesses. -/
def pinsFix : List (Str × PinEntry) :=
  [(("Foo.Bar".data),
    { source := ("winget".data), version := ("1.0".data), pinType := ("Pinning".data) })]

/-- Concrete raw table used in witnesses. -/
def tableFix : List (List (Str × Str)) := [[(("Id".data), ("Foo.Bar".data))]]

/-- The record `to_rows pinsFix tableFix` produces. -/
def rowFix : PackageRow :=
  { name := [], id := ("Foo.Bar".data), version := [], available := [], source := [],
    pinned := ("Yes".data), pin_type := ("Pinning".data), pin_version := ("1.0".data) }

theorem pyDictGet_nil {V : Type} (q : Str) : pyDictGet ([] : List (Str × V)) q = none := rfl

theorem pyDictGet_cons {V : Type} (k0 : Str) (v0 : V) (rest : List (Str × V)) (q : Str) :
    pyDictGet ((k0, v0) :: rest) q = if k0 = q then some v0 else pyDictGet rest q := by
  by_cases h : k0 = q
  · simp [pyDictGet, List.find?, decide_eq_true h, h]
  · simp [pyDictGet, List.find?, decide_eq_false h, h]

theorem pyDictGet_set {V : Type} (d : List (Str × V)) (k : Str) (v : V) (q : Str) :
    pyDictGet (pyDictSet d k v) q = if q = k then some v else pyDictGet d q := by
  induction d with
  | nil =>
    by_cases h : q = k
    · subst h; simp [pyDictSet, pyDictGet_cons]
    · have h2 : ¬ k = q := fun hh => h hh.symm
      simp [pyDictSet, pyDictGet_cons, pyDictGet_nil, h, h2]
  | cons kv rest ih =>
    obtain ⟨k0, v0⟩ := kv
    by_cases h0 : k0 = k
    · subst h0
      rw [show pyDictSet ((k0, v0) :: rest) k0 v = (k0, v) :: rest from by simp [pyDictSet]]
      rw [pyDictGet_cons, pyDictGet_cons]
      by_cases h : k0 = q
      · subst h; simp
      · have h2 : ¬ q = k0 := fun hh => h hh.symm
        simp [h, h2]
    · rw [show pyDictSet ((k0, v0) :: rest) k v = (k0, v0) :: pyDictSet rest k v from by
        simp [pyDictSet, h0]]
      rw [pyDictGet_cons, pyDictGet_cons, ih]
      by_cases h : k0 = q
      · subst h
        have h2 : ¬ k0 = k := h0
        simp [h2]
      · simp [h]

theorem keys_pyDictSet {V : Type} (d : List (Str × V)) (k : Str) (v : V) :
    (pyDictSet d k v).map Prod.fst =
      if k ∈ d.map Prod.fst then d.map Prod.fst else d.map Prod.fst ++ [k] := by
  induction d with
  | nil => simp [pyDictSet]
  | cons kv rest ih =>
    obtain ⟨k0, v0⟩ := kv
    by_cases h0 : k0 = k
    · subst h0
      have hs : pyDictSet ((k0, v0) :: rest) k0 v = (k0, v) :: rest := by
        simp [pyDictSet]
      rw [hs, List.map_cons, List.map_cons, if_pos (List.mem_cons_self _ _)]
    · have h1 : ¬ k = k0 := fun h => h0 h.symm
      by_cases hk : k ∈ rest.map Prod.fst <;>
        simp [pyDictSet, h0, h1, hk, ih]

theorem foldl_pyDictSet_keys {V : Type} (val : (Str × Nat × Nat) → V)
    (ps : List (Str × Nat × Nat)) :
    ∀ d : List (Str × V),
      (∀ q ∈ ps.map (fun x => x.1), q ∉ d.map Prod.fst) →
      (ps.map (fun x => x.1)).Nodup →
      ((ps.foldl (fun acc nse => pyDictSet acc nse.1 (val nse)) d).map Prod.fst) =
        d.map Prod.fst ++ ps.map (fun x => x.1) := by
  induction ps with
  | nil => intro d _ _; simp
  | cons p rest ih =>
    intro d hnew hnd
    have hp : p.1 ∉ d.map Prod.fst := hnew p.1 (by simp)
    have hkeys : (pyDictSet d p.1 (val p)).map Prod.fst = d.map Prod.fst ++ [p.1] := by
      rw [keys_pyDictSet, if_neg hp]
    simp only [List.map_cons, List.nodup_cons] at hnd
    simp only [List.foldl_cons]
    rw [ih (pyDictSet d p.1 (val p))]
    · rw [hkeys]
      simp
    · intro q hq
      rw [hkeys]
      simp only [List.mem_append, List.mem_singleton]
      rintro (hqd | rfl)
      · exact hnew q (by simp [hq]) hqd
      · exact hnd.1 hq
    · exact hnd.2

theorem mkRow_keys (slices : List (Str × Nat × Nat)) (ln : Str)
    (hnd : (slices.map (fun x => x.1)).Nodup) :
    (mkRow slices ln).map Prod.fst = slices.map (fun x => x.1) := by
  have h := foldl_pyDictSet_keys (fun nse => pyStrip (pySlice ln nse.2.1 nse.2.2)) slices []
    (by simp) hnd
  simpa [mkRow] using h

theorem buildSlices_fst (ps : List (Str × Nat)) :
    (buildSlices ps).map (fun x => x.1) = ps.map Prod.fst := by
  induction ps with
  | nil => rfl
  | cons p rest ih =>
    obtain ⟨n, s⟩ := p
    cases rest with
    | nil => rfl
    | cons q rest2 =>
      obtain ⟨n2, s2⟩ := q
      simpa [buildSlices] using ih

theorem computeStarts_length (h : Str) (names : List Str) :
    ∀ sf, (computeStarts h names sf).length = names.length := by
  induction names with
  | nil => intro sf; rfl
  | cons n rest ih => intro sf; simp [computeStarts, ih]

theorem tableLayout_fst (hl : Str) :
    (tableLayout hl).map (fun x => x.1) = colNames hl := by
  rw [tableLayout, buildSlices_fst, List.map_fst_zip]
  rw [computeStarts_length]

/-- Claim C1 (amended): for every well-formed input (the parser finds a header
line and a following dash line) whose trimmed header labels are pairwise
distinct, every row mapping produced by `parse_winget_table` has exactly those
labels as its keys, in order.  (Duplicate labels collapse into one dictionary
key, see the counterexample.) -/
theorem c1_parser_row_keys (out : Str) (hi : Nat) (hl : Str)
    (hhead : findHeaderIdx (linesOf out) = some hi)
    (hline : (linesOf out).getD hi [] = hl)
    (hnodup : (colNames hl).Nodup) :
    ∀ r ∈ parse_winget_table out, r.map Prod.fst = colNames hl := by
  intro r hr
  simp only [parse_winget_table, hhead] at hr
  rw [hline] at hr
  split at hr
  · simp at hr
  · split at hr
    · simp at hr
    · simp only [List.mem_filter, List.mem_map] at hr
      obtain ⟨⟨ln, hln, rfl⟩, _⟩ := hr
      have hfst : (tableLayout hl).map (fun x => x.1) = colNames hl := tableLayout_fst hl
      rw [mkRow_keys _ _ (by rw [hfst]; exact hnodup), hfst]

/-- Claim C1 counterexample: a well-formed input whose header has the three
labels `Name`, `Id`, `Id` produces a row whose mapping has only two keys, so
the rows do not have "exactly N keys ... exactly the N trimmed header labels". -/
theorem c1_counterexample :
    findHeaderIdx (linesOf (("Name  Id  Id\n---------------\naaaa  bb  cc").data)) = some 0 ∧
    (linesOf (("Name  Id  Id\n---------------\naaaa  bb  cc").data)).getD 0 [] =
      ("Name  Id  Id").data ∧
    colNames (("Name  Id  Id").data) = [("Name".data), ("Id".data), ("Id".data)] ∧
    ¬ ∀ r ∈ parse_winget_table (("Name  Id  Id\n---------------\naaaa  bb  cc").data),
        (r.map Prod.fst).length = 3 := by
  refine ⟨by decide, by decide, by decide, by decide⟩

/-- Claim C1 witness: a concrete well-formed table with distinct labels on
which the amended theorem applies. -/
theorem c1_witness :
    (colNames (("Name  Id       Version").data)).Nodup ∧
    ∀ r ∈ parse_winget_table (("Name  Id       Version\n----  --  -------\nFoo   Foo.Bar  1.0").data),
        r.map Prod.fst = colNames (("Name  Id       Version").data) :=
  ⟨by decide,
    c1_parser_row_keys (("Name  Id       Version\n----  --  -------\nFoo   Foo.Bar  1.0").data)
      0 (("Name  Id       Version").data) (by decide) (by decide) (by decide)⟩

/-- Claim C2: for every pin mapping and raw-row sequence, each record produced
by the row normalizer `to_rows` is marked pinned exactly when its resolved id
is a key of the mapping, and `pin_type`/`pin_version` are copied from the
matching entry when present, else empty. -/
theorem c2_normalizer_pin_join (pins : List (Str × PinEntry))
    (table : List (List (Str × Str))) :
    ∀ pr ∈ to_rows pins table,
      (pr.pinned = ("Yes".data) ↔ (pyDictGet pins pr.id).isSome) ∧
      (∀ e, pyDictGet pins pr.id = some e →
        pr.pin_type = e.pinType ∧ pr.pin_version = e.version) ∧
      (pyDictGet pins pr.id = none → pr.pin_type = [] ∧ pr.pin_version = []) := by
  intro pr hpr
  simp only [to_rows, List.mem_map] at hpr
  obtain ⟨r, hr, rfl⟩ := hpr
  cases h : pyDictGet pins (pyOrS (pyGetD r ("Id".data)) (pyGetD r ("ID".data))) with
  | none => simp [h]
  | some e => simp [h]

/-- Claim C2 witness: the pinned-iff conjunct at a concrete pinned row. -/
theorem c2_witness :
    rowFix.pinned = ("Yes".data) ↔ (pyDictGet pinsFix rowFix.id).isSome :=
  (c2_normalizer_pin_join pinsFix tableFix rowFix (by decide)).1

theorem runManyGo_spec (runner : List Str → Int × Str) (title : Str) (total : Nat) :
    ∀ (cmds : List (List Str)) (i : Nat),
      (runManyGo runner title total cmds i).filterMap logTextOf =
        cmds.map (fun cmd => logText cmd (runner cmd).2) ∧
      (runManyGo runner title total cmds i).countP isLogEv = cmds.length ∧
      (runManyGo runner title total cmds i).countP isDoneEv = 0 := by
  intro cmds
  induction cmds with
  | nil => intro i; simp [runManyGo]
  | cons cmd rest ih =>
    intro i
    obtain ⟨h1, h2, h3⟩ := ih (i + 1)
    refine ⟨?_, ?_, ?_⟩ <;>
      simp [runManyGo, List.filterMap_cons, logTextOf, isLogEv, isDoneEv,
        List.countP_cons, h1, h2, h3]

/-- Claim C5: in every run, every command is attempted (its log line appears,
with its own output, in command order) no matter what exit codes the runner
returns; there is exactly one log event per command and exactly one completion
event per run. -/
theorem c5_run_many_all_commands (runner : List Str → Int × Str) (title : Str)
    (cmdLists : List (List Str)) (refreshAfter : Bool) :
    (run_many runner title cmdLists refreshAfter).filterMap logTextOf =
      cmdLists.map (fun cmd => logText cmd (runner cmd).2) ∧
    (run_many runner title cmdLists refreshAfter).countP isLogEv = cmdLists.length ∧
    (run_many runner title cmdLists refreshAfter).countP isDoneEv = 1 := by
  obtain ⟨h1, h2, h3⟩ := runManyGo_spec runner title (max 1 cmdLists.length) cmdLists 1
  refine ⟨?_, ?_, ?_⟩ <;>
    cases refreshAfter <;>
      simp [run_many, List.filterMap_append, List.countP_append, h1, h2, h3,
        logTextOf, isLogEv, isDoneEv, List.countP_cons]

/-- Claim C6: `run_winget` never escapes with an exception and encodes each
failure mode as a distinct sentinel result: a missing executable yields 127
with a fixed installation hint, a timeout yields 124 with a diagnostic that
contains the full command line, and any other launch failure yields 1 with the
error description; the three failure codes are pairwise distinct. -/
theorem c6_runner_sentinels (env : WingetEnv) (args : List Str) (t : Option Nat) (e : Str) :
    (env.whichWinget = none → run_winget env args t = (127, notFoundMsg)) ∧
    (∀ exe, env.whichWinget = some exe → env.runProcess (exe :: args) t = .timedOut →
      (run_winget env args t).1 = 124 ∧
        joinSpace (exe :: args) <:+: (run_winget env args t).2) ∧
    (∀ exe, env.whichWinget = some exe → env.runProcess (exe :: args) t = .failed e →
      (run_winget env args t).1 = 1 ∧ e <:+: (run_winget env args t).2) ∧
    ((127 : Int) ≠ 124 ∧ (127 : Int) ≠ 1 ∧ (124 : Int) ≠ 1) := by
  refine ⟨?_, ?_, ?_, by decide, by decide, by decide⟩
  · intro hw
    simp [run_winget, hw]
  · intro exe hw hr
    simp only [run_winget, hw, hr]
    exact ⟨trivial, ⟨("Timeout running: ").data, [], by simp⟩⟩
  · intro exe hw hr
    simp only [run_winget, hw, hr]
    refine ⟨trivial, ⟨("Error running: ").data ++ joinSpace (exe :: args) ++ ['\n'], [], by simp⟩⟩

/-- Claim C6 witness: the three failure modes at concrete environments. -/
theorem c6_witness :
    run_winget ⟨none, fun _ _ => .timedOut⟩ [] none = (127, notFoundMsg) ∧
    ((run_winget ⟨some (("w").data), fun _ _ => .timedOut⟩ [("x").data] none).1 = 124 ∧
      joinSpace [("w").data, ("x").data] <:+:
        (run_winget ⟨some (("w").data), fun _ _ => .timedOut⟩ [("x").data] none).2) ∧
    ((run_winget ⟨some (("w").data), fun _ _ => .failed (("denied").data)⟩ [] none).1 = 1 ∧
      ("denied").data <:+:
        (run_winget ⟨some (("w").data), fun _ _ => .failed (("denied").data)⟩ [] none).2) :=
  ⟨(c6_runner_sentinels ⟨none, fun _ _ => .timedOut⟩ [] none []).1 rfl,
    (c6_runner_sentinels ⟨some (("w").data), fun _ _ => .timedOut⟩ [("x").data] none []).2.1
      (("w").data) rfl rfl,
    (c6_runner_sentinels ⟨some (("w").data), fun _ _ => .failed (("denied").data)⟩ [] none
      (("denied").data)).2.2.1 (("w").data) rfl rfl⟩

/-- Claim C7 counterexample: on a successful invocation whose stdout has
leading whitespace, the code trims both ends (`strip`), so the result differs
from the claim's trailing-only trim. -/
theorem c7_counterexample :
    (run_winget ⟨some (("w").data), fun _ _ => .completed 0 ((" x").data) []⟩ [] none).2 =
      ("x").data ∧
    claimCombinedOutput ((" x").data) [] = (" x").data ∧
    (run_winget ⟨some (("w").data), fun _ _ => .completed 0 ((" x").data) []⟩ [] none).2 ≠
      claimCombinedOutput ((" x").data) [] := by
  refine ⟨by decide, by decide, by decide⟩

/-- Claim C7 (amended): for every successful invocation the combined output is
stdout with stderr appended after a newline (omitted when empty), with leading
*and* trailing whitespace trimmed. -/
theorem c7_combined_output (env : WingetEnv) (args : List Str) (t : Option Nat)
    (exe : Str) (rc : Int) (so se : Str)
    (hw : env.whichWinget = some exe)
    (hr : env.runProcess (exe :: args) t = .completed rc so se) :
    run_winget env args t = (rc, pyLStrip (claimCombinedOutput so se)) := by
  simp [run_winget, hw, hr, pyStrip, claimCombinedOutput]

/-- Claim C7 witness: the amended formula at a concrete invocation. -/
theorem c7_witness :
    run_winget ⟨some (("w").data), fun _ _ => .completed 2 ((" out ").data) (("err").data)⟩
        [] none =
      (2, pyLStrip (claimCombinedOutput ((" out ").data) (("err").data))) :=
  c7_combined_output _ [] none (("w").data) 2 ((" out ").data) (("err").data) rfl rfl

theorem pinsFold_lookup (pid : Str) (hpid : ¬ pid = []) :
    ∀ (table : List (List (Str × Str))) (d : List (Str × PinEntry)),
      pyDictGet
          (table.foldl
            (fun pins r =>
              if (pinIdOf r).isEmpty then pins
              else pyDictSet pins (pinIdOf r) (pinEntryOf r)) d)
          pid =
        Option.or (((table.filter (fun r => decide (pinIdOf r = pid))).getLast?).map pinEntryOf)
          (pyDictGet d pid) := by
  intro table
  induction table with
  | nil => intro d; simp
  | cons r rest ih =>
    intro d
    simp only [List.foldl_cons, List.filter_cons]
    by_cases hm : pinIdOf r = pid
    · have hne : ¬ (pinIdOf r).isEmpty = true := by
        simpa [List.isEmpty_iff, hm] using hpid
      rw [if_neg hne, if_pos (by simp [hm]), ih]
      cases hfr : (rest.filter (fun r2 => decide (pinIdOf r2 = pid))).getLast? with
      | none =>
        have hnil : rest.filter (fun r2 => decide (pinIdOf r2 = pid)) = [] := by
          simpa [List.getLast?_eq_none_iff] using hfr
        simp [hnil, hm, pyDictGet_set]
      | some rl =>
        have hcons : ∃ q l, rest.filter (fun r2 => decide (pinIdOf r2 = pid)) = q :: l := by
          cases hx : rest.filter (fun r2 => decide (pinIdOf r2 = pid)) with
          | nil => rw [hx] at hfr; simp at hfr
          | cons q l => exact ⟨q, l, rfl⟩
        obtain ⟨q, l, hql⟩ := hcons
        rw [hql]
        rw [hql] at hfr
        simp [List.getLast?_cons_cons, hfr]
    · by_cases hz : (pinIdOf r).isEmpty
      · rw [if_pos hz, if_neg (by simp [hm]), ih]
      · rw [if_neg hz, if_neg (by simp [hm]), ih]
        have : pyDictGet (pyDictSet d (pinIdOf r) (pinEntryOf r)) pid = pyDictGet d pid := by
          rw [pyDictGet_set, if_neg (fun h => hm h.symm)]
        rw [this]

theorem pinsFold_nodup :
    ∀ (table : List (List (Str × Str))) (d : List (Str × PinEntry)),
      (d.map Prod.fst).Nodup →
      ((table.foldl
          (fun pins r =>
            if (pinIdOf r).isEmpty then pins
            else pyDictSet pins (pinIdOf r) (pinEntryOf r)) d).map Prod.fst).Nodup := by
  intro table
  induction table with
  | nil => intro d hd; simpa using hd
  | cons r rest ih =>
    intro d hd
    simp only [List.foldl_cons]
    apply ih
    by_cases hz : (pinIdOf r).isEmpty
    · simpa [hz] using hd
    · rw [if_neg hz, keys_pyDictSet]
      by_cases hk : pinIdOf r ∈ d.map Prod.fst
      · simpa [hk] using hd
      · rw [if_neg hk]
        simp [List.nodup_append, hd, hk]

/-- Claim C9: the pin registry load returns an empty mapping whenever the
pin-listing command exits non-zero; otherwise it is the parsed table folded
into a mapping with pairwise-distinct identifiers in which a later raw row
for the same identifier overwrites the earlier one. -/
theorem c9_pin_registry (env : WingetEnv) (table : List (List (Str × Str))) (pid : Str) :
    ((run_winget env [("pin".data), ("list".data)] none).1 ≠ 0 → get_pins env = []) ∧
    ((run_winget env [("pin".data), ("list".data)] none).1 = 0 →
      get_pins env =
        pinsOfTable (parse_winget_table (run_winget env [("pin".data), ("list".data)] none).2)) ∧
    ((pinsOfTable table).map Prod.fst).Nodup ∧
    (¬ pid = [] →
      pyDictGet (pinsOfTable table) pid =
        ((table.filter (fun r => decide (pinIdOf r = pid))).getLast?).map pinEntryOf) := by
  refine ⟨?_, ?_, ?_, ?_⟩
  · intro h
    simp [get_pins, h]
  · intro h
    simp [get_pins, h]
  · exact pinsFold_nodup table [] (by simp)
  · intro hpid
    have h := pinsFold_lookup pid hpid table []
    simpa [pinsOfTable, pyDictGet] using h

/-- Claim C9 witness: a non-zero exit yields the empty mapping, and on a
concrete table with a repeated identifier the later row's entry wins. -/
theorem c9_witness :
    get_pins ⟨some (("w").data), fun _ _ => .completed 1 [] []⟩ = [] ∧
    pyDictGet
        (pinsOfTable
          [[(("Id".data), ("A".data)), (("Version".data), ("1".data))],
            [(("Id".data), ("A".data)), (("Version".data), ("2".data))]])
        (("A").data) =
      (([[(("Id".data), ("A".data)), (("Version".data), ("1".data))],
            [(("Id".data), ("A".data)), (("Version".data), ("2".data))]].filter
          (fun r => decide (pinIdOf r = ("A").data))).getLast?).map pinEntryOf :=
  ⟨(c9_pin_registry ⟨some (("w").data), fun _ _ => .completed 1 [] []⟩ [] []).1 (by decide),
    (c9_pin_registry ⟨some (("w").data), fun _ _ => .completed 1 [] []⟩
        [[(("Id".data), ("A".data)), (("Version".data), ("1".data))],
          [(("Id".data), ("A".data)), (("Version".data), ("2".data))]]
        (("A").data)).2.2.2 (by decide)⟩

theorem dedupSeenGo_mem :
    ∀ (xs seen : List Str) (y : Str), y ∈ dedupSeenGo xs seen ↔ y ∈ xs ∧ y ∉ seen := by
  intro xs
  induction xs with
  | nil => intro seen y; simp [dedupSeenGo]
  | cons x rest ih =>
    intro seen y
    by_cases hx : x ∈ seen
    · rw [show dedupSeenGo (x :: rest) seen = dedupSeenGo rest seen from by
        simp [dedupSeenGo, hx]]
      rw [ih]
      constructor
      · rintro ⟨h1, h2⟩; exact ⟨List.mem_cons_of_mem _ h1, h2⟩
      · rintro ⟨h1, h2⟩
        rcases List.mem_cons.mp h1 with rfl | h1
        · exact absurd hx h2
        · exact ⟨h1, h2⟩
    · rw [show dedupSeenGo (x :: rest) seen = x :: dedupSeenGo rest (x :: seen) from by
        simp [dedupSeenGo, hx]]
      simp only [List.mem_cons, ih]
      constructor
      · rintro (rfl | ⟨h1, h2⟩)
        · exact ⟨Or.inl rfl, hx⟩
        · exact ⟨Or.inr h1, fun hs => h2 (Or.inr hs)⟩
      · rintro ⟨rfl | h1, h2⟩
        · exact Or.inl rfl
        · by_cases hyx : y = x
          · exact Or.inl hyx
          · exact Or.inr ⟨h1, by simp [hyx, h2]⟩

theorem dedupSeenGo_nodup : ∀ (xs seen : List Str), (dedupSeenGo xs seen).Nodup := by
  intro xs
  induction xs with
  | nil => intro seen; simp [dedupSeenGo]
  | cons x rest ih =>
    intro seen
    by_cases hx : x ∈ seen
    · simpa [dedupSeenGo, hx] using ih seen
    · rw [show dedupSeenGo (x :: rest) seen = x :: dedupSeenGo rest (x :: seen) from by
        simp [dedupSeenGo, hx]]
      refine List.nodup_cons.mpr ⟨?_, ih (x :: seen)⟩
      intro hmem
      exact ((dedupSeenGo_mem rest (x :: seen) x).mp hmem).2 (List.mem_cons_self _ _)

theorem dedupSeenGo_eq_firstOcc :
    ∀ (xs seen : List Str),
      dedupSeenGo xs seen = firstOccDedup (xs.filter (fun y => decide (y ∉ seen))) := by
  intro xs
  induction xs with
  | nil => intro seen; simp [dedupSeenGo, firstOccDedup]
  | cons x rest ih =>
    intro seen
    by_cases hx : x ∈ seen
    · rw [show dedupSeenGo (x :: rest) seen = dedupSeenGo rest seen from by
        simp [dedupSeenGo, hx]]
      rw [List.filter_cons, if_neg (by simp [hx])]
      exact ih seen
    · rw [show dedupSeenGo (x :: rest) seen = x :: dedupSeenGo rest (x :: seen) from by
        simp [dedupSeenGo, hx]]
      rw [List.filter_cons, if_pos (by simp [hx]), firstOccDedup, List.filter_filter]
      rw [ih (x :: seen)]
      have hpred :
          List.filter (fun y => decide (y ∉ x :: seen)) rest =
            List.filter (fun a => decide (a ≠ x) && decide (a ∉ seen)) rest := by
        apply List.filter_congr
        intro y _
        by_cases hyx : y = x <;> by_cases hys : y ∈ seen <;> simp [hyx, hys]
      rw [hpred]

/-- Claim C10: the identifier list built from a table selection is exactly the
first-occurrence deduplication of the raw id column, so it has no duplicates,
contains only non-empty ids, and carries each selected id exactly once. -/
theorem c10_selected_ids (selection : List (List Str)) (x : Str) :
    selected_ids selection = firstOccDedup (rawSelectedIds selection) ∧
    (selected_ids selection).Nodup ∧
    (x ∈ selected_ids selection → ¬ x = []) ∧
    ((selected_ids selection).countP (fun y => decide (y = x)) =
      if x ∈ rawSelectedIds selection then 1 else 0) := by
  refine ⟨?_, dedupSeenGo_nodup _ [], ?_, ?_⟩
  · rw [selected_ids, dedupSeenGo_eq_firstOcc]
    congr 1
    apply List.filter_eq_self.mpr
    intro y _
    simp
  · intro hmem
    have hraw : x ∈ rawSelectedIds selection :=
      ((dedupSeenGo_mem _ [] x).mp hmem).1
    simp only [rawSelectedIds, List.mem_map, List.mem_filter] at hraw
    obtain ⟨vals, ⟨_, hcond⟩, rfl⟩ := hraw
    intro hempty
    rw [hempty] at hcond
    simp at hcond
  · by_cases hmem : x ∈ rawSelectedIds selection
    · rw [if_pos hmem]
      have h1 := @List.count_eq_one_of_mem Str inferInstance x
        (dedupSeenGo (rawSelectedIds selection) [])
        (dedupSeenGo_nodup _ [])
        ((dedupSeenGo_mem _ [] x).mpr ⟨hmem, by simp⟩)
      exact h1
    · rw [if_neg hmem]
      rw [List.countP_eq_zero]
      intro a ha hp
      rw [decide_eq_true_eq] at hp
      subst hp
      exact hmem ((dedupSeenGo_mem _ [] a).mp ha).1

/-- Claim C10 witness: a concrete selection with a repeated id, a short row and
an empty id. -/
theorem c10_witness :
    (¬ (("A").data : Str) = []) ∧
    ((selected_ids
        [[("n1").data, ("A").data], [("n2").data, ("A").data], [("n3").data],
          [("n4").data, []], [("n5").data, ("B").data]]).countP
        (fun y => decide (y = ("A").data)) =
      if ("A").data ∈ rawSelectedIds
          [[("n1").data, ("A").data], [("n2").data, ("A").data], [("n3").data],
            [("n4").data, []], [("n5").data, ("B").data]] then 1 else 0) :=
  ⟨(c10_selected_ids
      [[("n1").data, ("A").data], [("n2").data, ("A").data], [("n3").data],
        [("n4").data, []], [("n5").data, ("B").data]] (("A").data)).2.2.1 (by decide),
    (c10_selected_ids
      [[("n1").data, ("A").data], [("n2").data, ("A").data], [("n3").data],
        [("n4").data, []], [("n5").data, ("B").data]] (("A").data)).2.2.2⟩

theorem dropWhile_dropWhile (p : Char → Bool) (l : Str) :
    (l.dropWhile p).dropWhile p = l.dropWhile p := by
  induction l with
  | nil => rfl
  | cons c t ih =>
    by_cases hc : p c
    · simpa [List.dropWhile_cons, hc] using ih
    · simp [List.dropWhile_cons, hc]

theorem pyRStrip_idem (s : Str) : pyRStrip (pyRStrip s) = pyRStrip s := by
  simp [pyRStrip, dropWhile_dropWhile]

theorem pyRStrip_of_lstrip (y : Str) (hy : pyRStrip y = y) :
    pyRStrip (pyLStrip y) = pyLStrip y := by
  induction y with
  | nil => rfl
  | cons c t ih =>
    by_cases hc : isPyWs c
    · have hL : pyLStrip (c :: t) = pyLStrip t := by simp [pyLStrip, List.dropWhile_cons, hc]
      rw [hL]
      apply ih
      cases ht : t.reverse with
      | nil =>
        have : t = [] := by simpa using congrArg List.reverse ht
        subst this
        rw [pyRStrip] at hy
        simp [List.dropWhile_cons, hc] at hy
      | cons d u =>
        have hrev : pyRStrip (c :: t) = (List.dropWhile isPyWs (t.reverse ++ [c])).reverse := by
          simp [pyRStrip]
        rw [hrev] at hy
        have hfix : List.dropWhile isPyWs (t.reverse ++ [c]) = t.reverse ++ [c] := by
          have := congrArg List.reverse hy
          simpa using this
        rw [ht] at hfix
        have hd : ¬ isPyWs d = true := by
          rw [List.cons_append, List.dropWhile_cons] at hfix
          by_contra hdw
          simp only [hdw, if_true] at hfix
          have hlen := congrArg List.length hfix
          have hle := (List.dropWhile_suffix isPyWs (l := u ++ [c])).sublist.length_le
          simp only [List.length_cons] at hlen
          omega
        rw [pyRStrip, ht, List.dropWhile_cons, if_neg hd]
        simpa using congrArg List.reverse ht.symm
    · simp [pyLStrip, List.dropWhile_cons, hc, hy]

theorem pyStrip_idem (s : Str) : pyStrip (pyStrip s) = pyStrip s := by
  rw [pyStrip, pyStrip]
  rw [pyRStrip_of_lstrip (pyRStrip s) (pyRStrip_idem s)]
  exact dropWhile_dropWhile isPyWs (pyRStrip s)

theorem version_key_strip (v : Str) : version_key (pyStrip v) = claimVersionKeyAmended v := by
  by_cases he : (pyStrip v).isEmpty
  · have hz : pyStrip v = [] := by simpa using he
    simp [version_key, claimVersionKeyAmended, hz, digitRuns, digitRunsGo]
  · rw [version_key, if_neg he, claimVersionKeyAmended]
    simp only [pyStrip_idem]
    by_cases hd : (digitRuns (pyStrip v)).isEmpty
    · simp [hd, he]
    · simp [hd]

/-- Claim C3 counterexample: the claim's key formula fails on the empty string
(the code returns the two-element tuple `(0, ())`, not `(0, (), "")`) and on a
value with surrounding whitespace (the code lowercases the *trimmed* string,
not the original). -/
theorem c3_counterexample :
    cell_key ("Version".data) [] = CKey.tup 0 [] none ∧
    claimVersionKey [] = CKey.tup 0 [] (some []) ∧
    cell_key ("Version".data) [] ≠ claimVersionKey [] ∧
    cell_key ("Version".data) ((" A ").data) ≠ claimVersionKey ((" A ").data) := by
  refine ⟨by decide, by decide, by decide, by decide⟩

/-- Claim C3 (amended): for every value of a version-like column, the sort key
is `(1, digit runs, lowercase)` / `(0, (), lowercase)` of the *trimmed* value,
with the trimmed-empty value getting the two-element key `(0, ())`; and
`sortKey("Version","1.9") < sortKey("Version","1.10")` while
`sortKey("Version","abc") < sortKey("Version","1.0")`. -/
theorem c3_version_sort_key (col : Str) (v : Str)
    (hcol : col = ("Version".data) ∨ col = ("Available".data) ∨ col = ("PinVersion".data)) :
    cell_key col v = claimVersionKeyAmended v ∧
    CKey.ltB (cell_key ("Version".data) (("1.9").data))
      (cell_key ("Version".data) (("1.10").data)) = true ∧
    CKey.ltB (cell_key ("Version".data) (("abc").data))
      (cell_key ("Version".data) (("1.0").data)) = true := by
  refine ⟨?_, by decide, by decide⟩
  rw [cell_key, if_pos hcol]
  exact version_key_strip v

/-- Claim C3 witness: the amended key formula at a concrete dotted version. -/
theorem c3_witness :
    cell_key ("Version".data) (("1.2.3").data) = claimVersionKeyAmended (("1.2.3").data) ∧
    CKey.ltB (cell_key ("Version".data) (("1.9").data))
      (cell_key ("Version".data) (("1.10").data)) = true ∧
    CKey.ltB (cell_key ("Version".data) (("abc").data))
      (cell_key ("Version".data) (("1.0").data)) = true :=
  c3_version_sort_key ("Version".data) (("1.2.3").data) (Or.inl rfl)

theorem occursFrom_mono (h : Str) :
    ∀ (T : List Str) (k k2 : Nat), k2 ≤ k → OccursFrom h k T → OccursFrom h k2 T := by
  intro T
  induction T with
  | nil => intro k k2 _ _; trivial
  | cons n rest _ =>
    intro k k2 hle hocc
    obtain ⟨p, hk, hpre, hrest⟩ := hocc
    exact ⟨p, le_trans hle hk, hpre, hrest⟩

theorem occursFrom_shift (pre h : Str) :
    ∀ (T : List Str) (k : Nat), OccursFrom h k T → OccursFrom (pre ++ h) (pre.length + k) T := by
  intro T
  induction T with
  | nil => intro k _; trivial
  | cons n rest ih =>
    intro k hocc
    obtain ⟨p, hk, hpre, hrest⟩ := hocc
    refine ⟨pre.length + p, by omega, ?_, ?_⟩
    · have hdrop : (pre ++ h).drop (pre.length + p) = h.drop p := by
        rw [List.drop_append_eq_append_drop]
        rw [List.drop_eq_nil_of_le (by omega)]
        simp
      rw [hdrop]
      exact hpre
    · have := ih (p + n.length) hrest
      have harith : pre.length + p + n.length = pre.length + (p + n.length) := by omega
      rw [harith]
      exact this

theorem occursFrom_append_right (h post : Str) :
    ∀ (T : List Str) (k : Nat), OccursFrom h k T → OccursFrom (h ++ post) k T := by
  intro T
  induction T with
  | nil => intro k _; trivial
  | cons n rest ih =>
    intro k hocc
    obtain ⟨p, hk, hpre, hrest⟩ := hocc
    refine ⟨p, hk, ?_, ih _ hrest⟩
    rw [List.drop_append_eq_append_drop]
    exact hpre.trans (List.prefix_append _ _)

theorem strip_decomp (n : Str) : ∃ a b, n = a ++ pyStrip n ++ b := by
  refine ⟨(pyRStrip n).takeWhile isPyWs, (n.reverse.takeWhile isPyWs).reverse, ?_⟩
  have h2 : (pyRStrip n).takeWhile isPyWs ++ pyStrip n = pyRStrip n := by
    rw [pyStrip, pyLStrip]
    exact List.takeWhile_append_dropWhile ..
  have h1 : pyRStrip n ++ (n.reverse.takeWhile isPyWs).reverse = n := by
    rw [pyRStrip, ← List.reverse_append, List.takeWhile_append_dropWhile, List.reverse_reverse]
  calc n = pyRStrip n ++ (n.reverse.takeWhile isPyWs).reverse := h1.symm
    _ = ((pyRStrip n).takeWhile isPyWs ++ pyStrip n) ++ (n.reverse.takeWhile isPyWs).reverse := by
        rw [h2]
    _ = (pyRStrip n).takeWhile isPyWs ++ pyStrip n ++ (n.reverse.takeWhile isPyWs).reverse := by
        rw [List.append_assoc]

theorem occursFrom_map_strip (h : Str) :
    ∀ (T : List Str) (k : Nat), OccursFrom h k T → OccursFrom h k (T.map pyStrip) := by
  intro T
  induction T with
  | nil => intro k _; trivial
  | cons n rest ih =>
    intro k hocc
    obtain ⟨p, hk, hpre, hrest⟩ := hocc
    obtain ⟨a, b, hn⟩ := strip_decomp n
    obtain ⟨t, ht⟩ := hpre
    refine ⟨p + a.length, by omega, ?_, ?_⟩
    · have h1 : h.drop (p + a.length) = (h.drop p).drop a.length :=
        (List.drop_drop _ _ _).symm
      have h2 : (h.drop p).drop a.length = pyStrip n ++ (b ++ t) := by
        conv_lhs => rw [← ht, hn]
        rw [List.append_assoc, List.append_assoc, List.drop_left]
      rw [h1, h2]
      exact ⟨b ++ t, rfl⟩
    · have hlen : p + a.length + (pyStrip n).length ≤ p + n.length := by
        have hx := congrArg List.length hn
        simp [List.length_append] at hx
        omega
      exact occursFrom_mono h _ _ _ hlen (ih _ hrest)

theorem occursFrom_filter (h : Str) (pred : Str → Bool) :
    ∀ (T : List Str) (k : Nat), OccursFrom h k T → OccursFrom h k (T.filter pred) := by
  intro T
  induction T with
  | nil => intro k _; trivial
  | cons n rest ih =>
    intro k hocc
    obtain ⟨p, hk, hpre, hrest⟩ := hocc
    rw [List.filter_cons]
    by_cases hp : pred n
    · rw [if_pos hp]
      exact ⟨p, hk, hpre, ih _ hrest⟩
    · rw [if_neg hp]
      exact ih _ (occursFrom_mono h rest _ k (by omega) hrest)

theorem splitWs2Go_occurs :
    ∀ (l cur ws : Str), OccursFrom ((ws ++ cur).reverse ++ l) 0 (splitWs2Go l cur ws) := by
  intro l
  induction l with
  | nil =>
    intro cur ws
    by_cases hw : 2 ≤ ws.length
    · rw [show splitWs2Go [] cur ws = [cur.reverse, []] from by simp [splitWs2Go, hw]]
      refine ⟨0, le_refl 0, ⟨ws.reverse, by simp⟩, ?_⟩
      exact ⟨0 + cur.reverse.length, le_refl _, List.nil_prefix, trivial⟩
    · rw [show splitWs2Go [] cur ws = [(ws ++ cur).reverse] from by simp [splitWs2Go, hw]]
      exact ⟨0, le_refl 0, ⟨[], by simp⟩, trivial⟩
  | cons c rest ih =>
    intro cur ws
    by_cases hws : isPyWs c
    · rw [show splitWs2Go (c :: rest) cur ws = splitWs2Go rest cur (c :: ws) from by
        simp [splitWs2Go, hws]]
      have hih := ih cur (c :: ws)
      have heq : ((c :: ws) ++ cur).reverse ++ rest = (ws ++ cur).reverse ++ (c :: rest) := by
        simp
      rw [heq] at hih
      exact hih
    · by_cases hw2 : 2 ≤ ws.length
      · rw [show splitWs2Go (c :: rest) cur ws = cur.reverse :: splitWs2Go rest [c] [] from by
          simp [splitWs2Go, hws, hw2]]
        refine ⟨0, le_refl 0, ⟨ws.reverse ++ c :: rest, by simp⟩, ?_⟩
        have hih : OccursFrom (c :: rest) 0 (splitWs2Go rest [c] []) := by
          simpa using ih [c] []
        have hsh := occursFrom_shift ((ws ++ cur).reverse) (c :: rest) _ 0 hih
        rw [show (ws ++ cur).reverse ++ (c :: rest) = (ws ++ cur).reverse ++ c :: rest from rfl]
          at hsh
        apply occursFrom_mono _ _ _ _ _ hsh
        simp
      · rw [show splitWs2Go (c :: rest) cur ws = splitWs2Go rest (c :: (ws ++ cur)) [] from by
          simp [splitWs2Go, hws, hw2]]
        have hih := ih (c :: (ws ++ cur)) []
        have heq : (([] : Str) ++ (c :: (ws ++ cur))).reverse ++ rest
            = (ws ++ cur).reverse ++ (c :: rest) := by simp
        rw [heq] at hih
        exact hih

theorem colNames_occurs (hl : Str) : OccursFrom hl 0 (colNames hl) := by
  have h1 : OccursFrom (pyStrip hl) 0 (splitWs2 (pyStrip hl)) := by
    simpa [splitWs2] using splitWs2Go_occurs (pyStrip hl) [] []
  have h2 := occursFrom_map_strip _ _ _ h1
  have h3 := occursFrom_filter (pyStrip hl) (fun t => !t.isEmpty) _ _ h2
  obtain ⟨a, b, hd⟩ := strip_decomp hl
  have h4 := occursFrom_shift a _ _ _ h3
  have h5 := occursFrom_append_right (a ++ pyStrip hl) b _ _ h4
  have h6 : (a ++ pyStrip hl) ++ b = hl := hd.symm
  rw [h6] at h5
  exact occursFrom_mono _ _ _ 0 (by omega) h5

theorem findAux_min :
    ∀ (l : Str) (j : Nat) (sub : Str), sub <+: l.drop j →
      ∃ i, findAux l sub = some i ∧ i ≤ j ∧ sub <+: l.drop i := by
  intro l
  induction l with
  | nil =>
    intro j sub hpre
    rw [List.drop_nil] at hpre
    have hsub : sub = [] := List.prefix_nil.mp hpre
    subst hsub
    exact ⟨0, by rfl, by omega, by simp⟩
  | cons c t ih =>
    intro j sub hpre
    by_cases hp : sub.isPrefixOf (c :: t)
    · refine ⟨0, ?_, by omega, ?_⟩
      · rw [findAux, if_pos hp]
      · simpa using List.isPrefixOf_iff_prefix.mp hp
    · cases j with
      | zero =>
        rw [List.drop_zero] at hpre
        exact absurd (List.isPrefixOf_iff_prefix.mpr hpre) hp
      | succ j2 =>
        rw [List.drop_succ_cons] at hpre
        obtain ⟨i, hfind, hle, hpre2⟩ := ih j2 sub hpre
        refine ⟨i + 1, ?_, by omega, by simpa [List.drop_succ_cons] using hpre2⟩
        rw [findAux, if_neg hp, hfind]
        rfl

theorem pyFindFrom_le (h sub : Str) (sf p : Nat) (hsf : sf ≤ p) (hpre : sub <+: h.drop p) :
    ∃ q, pyFindFrom h sub sf = some q ∧ sf ≤ q ∧ q ≤ p ∧ sub <+: h.drop q := by
  have hdd : (h.drop sf).drop (p - sf) = h.drop p := by
    rw [List.drop_drop]
    congr 1
    omega
  rw [← hdd] at hpre
  obtain ⟨i, hfind, hle, hpre2⟩ := findAux_min (h.drop sf) (p - sf) sub hpre
  refine ⟨i + sf, ?_, by omega, by omega, ?_⟩
  · rw [pyFindFrom, hfind]
    rfl
  · rw [show i + sf = sf + i from by omega, ← List.drop_drop]
    exact hpre2

theorem computeStarts_chain (h : Str) :
    ∀ (names : List Str) (sf : Nat), (∀ n ∈ names, ¬ n = []) → OccursFrom h sf names →
      List.Chain' (· < ·) (computeStarts h names sf) ∧
        ∀ s ∈ computeStarts h names sf, sf ≤ s := by
  intro names
  induction names with
  | nil =>
    intro sf _ _
    refine ⟨List.chain'_nil, ?_⟩
    intro s hs
    simp [computeStarts] at hs
  | cons n rest ih =>
    intro sf hne hocc
    obtain ⟨p, hsf, hpre, hrest⟩ := hocc
    obtain ⟨q, hfind, hq1, hq2, _⟩ := pyFindFrom_le h n sf p hsf hpre
    have hcs : computeStarts h (n :: rest) sf = q :: computeStarts h rest (q + n.length) := by
      simp [computeStarts, hfind]
    have hlen : 1 ≤ n.length := by
      have hx := hne n (by simp)
      cases n with
      | nil => exact absurd rfl hx
      | cons d u => simp
    have hrest2 : OccursFrom h (q + n.length) rest :=
      occursFrom_mono h rest (p + n.length) (q + n.length) (by omega) hrest
    obtain ⟨hchain, hge⟩ := ih (q + n.length) (fun m hm => hne m (by simp [hm])) hrest2
    rw [hcs]
    constructor
    · rw [List.chain'_cons']
      refine ⟨?_, hchain⟩
      intro y hy
      have := hge y (List.mem_of_mem_head? hy)
      omega
    · intro s hs
      rcases List.mem_cons.mp hs with rfl | hs2
      · omega
      · have := hge s hs2
        omega

theorem buildSlices_getLast :
    ∀ (ps : List (Str × Nat)) (nse : Str × Nat × Nat),
      (buildSlices ps).getLast? = some nse → nse.2.2 = 10000 := by
  intro ps
  induction ps with
  | nil => intro nse h; simp [buildSlices] at h
  | cons p rest ih =>
    intro nse h
    obtain ⟨n, s⟩ := p
    cases rest with
    | nil =>
      have hx : some ((n, s, 10000) : Str × Nat × Nat) = some nse := by
        simpa [buildSlices] using h
      cases hx
      rfl
    | cons p2 rest2 =>
      obtain ⟨n2, s2⟩ := p2
      rw [show buildSlices ((n, s) :: (n2, s2) :: rest2)
          = (n, s, s2) :: buildSlices ((n2, s2) :: rest2) from rfl] at h
      have hne : buildSlices ((n2, s2) :: rest2) ≠ [] := by
        cases rest2 with
        | nil => simp [buildSlices]
        | cons p3 r3 =>
          obtain ⟨n3, s3⟩ := p3
          simp [buildSlices]
      cases hb : buildSlices ((n2, s2) :: rest2) with
      | nil => exact absurd hb hne
      | cons q l =>
        rw [hb, List.getLast?_cons_cons] at h
        apply ih
        rw [hb]
        exact h

/-- Claim C4 (amended): for every header line, the derived column start
offsets are non-decreasing (in fact strictly increasing), and the last
column's range ends at the fixed sentinel offset `10_000`, so no data line of
length at most `10_000` is truncated by the last column's slice.  (The range
is not unbounded: a longer line is truncated, see the counterexample.) -/
theorem c4_layout_invariant (hl : Str) :
    List.Pairwise (· ≤ ·) (computeStarts hl (colNames hl) 0) ∧
    (∀ nse, (tableLayout hl).getLast? = some nse → nse.2.2 = 10000) ∧
    (∀ nse, (tableLayout hl).getLast? = some nse →
      ∀ ln : Str, ln.length ≤ 10000 → pySlice ln nse.2.1 nse.2.2 = ln.drop nse.2.1) := by
  have hne : ∀ n ∈ colNames hl, ¬ n = [] := by
    intro n hn
    simp only [colNames, List.mem_filter] at hn
    intro hz
    rw [hz] at hn
    simp at hn
  obtain ⟨hchain, _⟩ := computeStarts_chain hl (colNames hl) 0 hne (colNames_occurs hl)
  refine ⟨?_, ?_, ?_⟩
  · exact (List.chain'_iff_pairwise.mp hchain).imp (fun h => le_of_lt h)
  · intro nse h
    exact buildSlices_getLast _ nse h
  · intro nse h ln hln
    have he := buildSlices_getLast _ nse h
    rw [he, pySlice, List.take_of_length_le (by omega)]

set_option maxRecDepth 8192

/-- Claim C4 counterexample: the parser's layout for header `"Name  Id"` ends
the last column at offset `10_000`, and slicing a 10 001-character data line
with it loses the final character, so the last column's range is not unbounded
and a data line can be truncated. -/
theorem c4_counterexample :
    tableLayout (("Name  Id").data) = [((("Name").data), 0, 6), ((("Id").data), 6, 10000)] ∧
    pySlice (List.replicate 6 'a' ++ List.replicate 9995 'b') 6 10000 ≠
      (List.replicate 6 'a' ++ List.replicate 9995 'b').drop 6 := by
  have hdrop : ∀ (X : Str), (List.replicate 6 'a' ++ X).drop 6 = X := by
    intro X
    rw [List.drop_append_of_le_length (by simp), List.drop_eq_nil_of_le (by simp),
      List.nil_append]
  constructor
  · decide
  · have h1 : (List.replicate 6 'a').take 10000 = List.replicate 6 'a' :=
      List.take_of_length_le (by simp)
    have h2 : (List.replicate 6 'a' ++ List.replicate 9995 'b').take 10000 =
        (List.replicate 6 'a').take 10000 ++
          (List.replicate 9995 'b').take (10000 - (List.replicate 6 'a').length) :=
      List.take_append_eq_append_take ..
    have h3 : 10000 - (List.replicate 6 'a').length = 9994 := by
      rw [List.length_replicate]
    have h4 : (List.replicate 9995 'b').take 9994 = List.replicate 9994 'b' := by
      rw [List.take_replicate]
      congr 1
    have htake : (List.replicate 6 'a' ++ List.replicate 9995 'b').take 10000
        = List.replicate 6 'a' ++ List.replicate 9994 'b' := by
      rw [h2, h1, h3, h4]
    rw [pySlice, htake, hdrop, hdrop]
    intro hcontra
    have hlen := congrArg List.length hcontra
    rw [List.length_replicate, List.length_replicate] at hlen
    omega

/-- Claim C4 witness: the amended invariant at the concrete header
`"Name  Id"` and a short data line. -/
theorem c4_witness :
    (tableLayout (("Name  Id").data)).getLast? = some (((("Id").data), 6, 10000)) ∧
    (((("Id").data), 6, 10000) : Str × Nat × Nat).2.2 = 10000 ∧
    pySlice (("abcdefgh").data) 6 10000 = (("abcdefgh").data).drop 6 :=
  ⟨by decide,
    (c4_layout_invariant (("Name  Id").data)).2.1 ((("Id").data), 6, 10000) (by decide),
    (c4_layout_invariant (("Name  Id").data)).2.2 ((("Id").data), 6, 10000) (by decide)
      (("abcdefgh").data) (by decide)⟩

theorem lexLtB_irrefl {α : Type} [DecidableEq α] (lt : α → α → Bool)
    (hirr : ∀ a, lt a a = false) : ∀ l, lexLtB lt l l = false := by
  intro l
  induction l with
  | nil => rfl
  | cons a as ih => simp [lexLtB, hirr, ih]

theorem lexLtB_trans {α : Type} [DecidableEq α] (lt : α → α → Bool)
    (htr : ∀ a b c, lt a b = true → lt b c = true → lt a c = true) :
    ∀ l1 l2 l3, lexLtB lt l1 l2 = true → lexLtB lt l2 l3 = true →
      lexLtB lt l1 l3 = true := by
  intro l1
  induction l1 with
  | nil =>
    intro l2 l3 h1 h2
    cases l2 with
    | nil => simp [lexLtB] at h1
    | cons b bs =>
      cases l3 with
      | nil => simp [lexLtB] at h2
      | cons c cs => simp [lexLtB]
  | cons a as ih =>
    intro l2 l3 h1 h2
    cases l2 with
    | nil => simp [lexLtB] at h1
    | cons b bs =>
      cases l3 with
      | nil => simp [lexLtB] at h2
      | cons c cs =>
        simp only [lexLtB, Bool.or_eq_true, Bool.and_eq_true, decide_eq_true_eq] at h1 h2 ⊢
        rcases h1 with h1 | ⟨rfl, h1⟩
        · rcases h2 with h2 | ⟨rfl, h2⟩
          · exact Or.inl (htr _ _ _ h1 h2)
          · exact Or.inl h1
        · rcases h2 with h2 | ⟨rfl, h2⟩
          · exact Or.inl h2
          · exact Or.inr ⟨rfl, ih bs cs h1 h2⟩

theorem lexLtB_conn {α : Type} [DecidableEq α] (lt : α → α → Bool)
    (hc : ∀ a b, lt a b = false → lt b a = false → a = b) :
    ∀ l1 l2, lexLtB lt l1 l2 = false → lexLtB lt l2 l1 = false → l1 = l2 := by
  intro l1
  induction l1 with
  | nil =>
    intro l2 h1 _
    cases l2 with
    | nil => rfl
    | cons b bs => simp [lexLtB] at h1
  | cons a as ih =>
    intro l2 h1 h2
    cases l2 with
    | nil => simp [lexLtB] at h2
    | cons b bs =>
      simp only [lexLtB, Bool.or_eq_false_iff, Bool.and_eq_false_iff] at h1 h2
      obtain ⟨hab, h1r⟩ := h1
      obtain ⟨hba, h2r⟩ := h2
      have hab2 : a = b := hc a b hab hba
      subst hab2
      rcases h1r with h1r | h1r
      · simp at h1r
      · rcases h2r with h2r | h2r
        · simp at h2r
        · rw [ih bs h1r h2r]

theorem natLtB_irrefl : ∀ a : Nat, natLtB a a = false := by
  intro a; simp [natLtB]

theorem natLtB_trans : ∀ a b c : Nat, natLtB a b = true → natLtB b c = true →
    natLtB a c = true := by
  intro a b c h1 h2
  simp only [natLtB, decide_eq_true_eq] at h1 h2 ⊢
  omega

theorem natLtB_conn : ∀ a b : Nat, natLtB a b = false → natLtB b a = false → a = b := by
  intro a b h1 h2
  simp only [natLtB, decide_eq_false_iff_not] at h1 h2
  omega

theorem charLtB_irrefl : ∀ a : Char, charLtB a a = false := by
  intro a; simp [charLtB]

theorem charLtB_trans : ∀ a b c : Char, charLtB a b = true → charLtB b c = true →
    charLtB a c = true := by
  intro a b c h1 h2
  simp only [charLtB, decide_eq_true_eq] at h1 h2 ⊢
  exact lt_trans h1 h2

theorem charLtB_conn : ∀ a b : Char, charLtB a b = false → charLtB b a = false → a = b := by
  intro a b h1 h2
  simp only [charLtB, decide_eq_false_iff_not] at h1 h2
  exact le_antisymm (le_of_not_lt h2) (le_of_not_lt h1)

theorem optLtB_irrefl : ∀ s : Option Str, optLtB s s = false := by
  intro s
  cases s with
  | none => rfl
  | some a => simpa [optLtB] using lexLtB_irrefl charLtB charLtB_irrefl a

theorem optLtB_trans : ∀ s1 s2 s3 : Option Str, optLtB s1 s2 = true → optLtB s2 s3 = true →
    optLtB s1 s3 = true := by
  intro s1 s2 s3 h1 h2
  cases s1 <;> cases s2 <;> cases s3 <;> simp [optLtB] at h1 h2 ⊢
  exact lexLtB_trans charLtB charLtB_trans _ _ _ h1 h2

theorem optLtB_conn : ∀ s1 s2 : Option Str, optLtB s1 s2 = false → optLtB s2 s1 = false →
    s1 = s2 := by
  intro s1 s2 h1 h2
  cases s1 <;> cases s2 <;> simp [optLtB] at h1 h2 ⊢
  exact lexLtB_conn charLtB charLtB_conn _ _ h1 h2

theorem ck_ltB_irrefl : ∀ k : CKey, CKey.ltB k k = false := by
  intro k
  cases k with
  | tup d n s =>
    simp [CKey.ltB, natLtB_irrefl, optLtB_irrefl,
      lexLtB_irrefl natLtB natLtB_irrefl]
  | int m => simp [CKey.ltB, natLtB_irrefl]
  | str s => simp [CKey.ltB, lexLtB_irrefl charLtB charLtB_irrefl]

theorem ck_ltB_trans : ∀ a b c : CKey, CKey.ltB a b = true → CKey.ltB b c = true →
    CKey.ltB a c = true := by
  intro a b c h1 h2
  cases a <;> cases b <;> cases c <;>
    simp only [CKey.ltB, CKey.tag, natLtB, Bool.or_eq_true, Bool.and_eq_true,
      decide_eq_true_eq] at h1 h2 ⊢ <;>
    try omega
  · rcases h1 with h1 | ⟨rfl, h1⟩
    · rcases h2 with h2 | ⟨rfl, h2⟩
      · exact Or.inl (by omega)
      · exact Or.inl h1
    · rcases h2 with h2 | ⟨rfl, h2⟩
      · exact Or.inl h2
      · refine Or.inr ⟨rfl, ?_⟩
        rcases h1 with h1 | ⟨rfl, h1⟩
        · rcases h2 with h2 | ⟨rfl, h2⟩
          · exact Or.inl (lexLtB_trans natLtB natLtB_trans _ _ _ h1 h2)
          · exact Or.inl h1
        · rcases h2 with h2 | ⟨rfl, h2⟩
          · exact Or.inl h2
          · exact Or.inr ⟨rfl, optLtB_trans _ _ _ h1 h2⟩
  · exact lexLtB_trans charLtB charLtB_trans _ _ _ h1 h2

theorem ck_ltB_conn : ∀ a b : CKey, CKey.ltB a b = false → CKey.ltB b a = false → a = b := by
  intro a b h1 h2
  cases a with
  | tup d1 n1 s1 =>
    cases b with
    | tup d2 n2 s2 =>
      simp only [CKey.ltB, natLtB, Bool.or_eq_false_iff, Bool.and_eq_false_iff,
        decide_eq_false_iff_not] at h1 h2
      obtain ⟨hd12, h1r⟩ := h1
      obtain ⟨hd21, h2r⟩ := h2
      have hd : d1 = d2 := by omega
      subst hd
      have hn : n1 = n2 := by
        rcases h1r with h1r | ⟨hn12, _⟩
        · exact absurd rfl h1r
        · rcases h2r with h2r | ⟨hn21, _⟩
          · exact absurd rfl h2r
          · exact lexLtB_conn natLtB natLtB_conn _ _ hn12 hn21
      subst hn
      have hs : s1 = s2 := by
        rcases h1r with h1r | ⟨_, h1s⟩
        · exact absurd rfl h1r
        · rcases h2r with h2r | ⟨_, h2s⟩
          · exact absurd rfl h2r
          · rcases h1s with h1s | h1s
            · exact absurd rfl h1s
            · rcases h2s with h2s | h2s
              · exact absurd rfl h2s
              · exact optLtB_conn _ _ h1s h2s
      rw [hs]
    | int m => simp [CKey.ltB, CKey.tag, natLtB] at h1
    | str s => simp [CKey.ltB, CKey.tag, natLtB] at h1
  | int m1 =>
    cases b with
    | tup d n s => simp [CKey.ltB, CKey.tag, natLtB] at h2
    | int m2 =>
      simp only [CKey.ltB, natLtB, decide_eq_false_iff_not] at h1 h2
      have hm : m1 = m2 := by omega
      rw [hm]
    | str s => simp [CKey.ltB, CKey.tag, natLtB] at h1
  | str s1 =>
    cases b with
    | tup d n s => simp [CKey.ltB, CKey.tag, natLtB] at h2
    | int m => simp [CKey.ltB, CKey.tag, natLtB] at h2
    | str s2 =>
      simp only [CKey.ltB] at h1 h2
      rw [lexLtB_conn charLtB charLtB_conn _ _ h1 h2]

theorem ck_le_total : ∀ a b : CKey, CKey.ltB b a = false ∨ CKey.ltB a b = false := by
  intro a b
  by_cases hba : CKey.ltB b a = false
  · exact Or.inl hba
  · by_cases hab : CKey.ltB a b = false
    · exact Or.inr hab
    · rw [Bool.not_eq_false] at hba hab
      have := ck_ltB_trans a b a hab hba
      rw [ck_ltB_irrefl a] at this
      exact absurd this (by decide)

theorem ck_le_trans : ∀ a b c : CKey, CKey.ltB b a = false → CKey.ltB c b = false →
    CKey.ltB c a = false := by
  intro a b c hba hcb
  by_contra hca
  rw [Bool.not_eq_false] at hca
  by_cases hbc : CKey.ltB b c = true
  · by_cases hab : CKey.ltB a b = true
    · have := ck_ltB_trans c a b hca hab
      rw [hcb] at this
      exact absurd this (by decide)
    · rw [Bool.not_eq_true] at hab
      have hEq := ck_ltB_conn a b hab hba
      rw [hEq] at hca
      rw [hca] at hcb
      exact absurd hcb (by decide)
  · rw [Bool.not_eq_true] at hbc
    have hEq := ck_ltB_conn b c hbc hcb
    rw [← hEq] at hca
    rw [hca] at hba
    exact absurd hba (by decide)

theorem rowLe_total (col : Str) : ∀ a b : RowVals, rowLe col a b ∨ rowLe col b a := by
  intro a b
  exact ck_le_total (cell_key col (rowCell col a)) (cell_key col (rowCell col b))

theorem rowLe_trans (col : Str) : ∀ a b c : RowVals,
    rowLe col a b → rowLe col b c → rowLe col a c := by
  intro a b c h1 h2
  exact ck_le_trans (cell_key col (rowCell col a)) (cell_key col (rowCell col b))
    (cell_key col (rowCell col c)) h1 h2

theorem sort_tree_idem (col : Str) (rev : Bool) (rows : List RowVals) :
    sort_tree col rev (sort_tree col rev rows) = sort_tree col rev rows := by
  haveI : IsTotal RowVals (rowLe col) := ⟨rowLe_total col⟩
  haveI : IsTrans RowVals (rowLe col) := ⟨rowLe_trans col⟩
  cases rev with
  | false =>
    show List.insertionSort (rowLe col) (List.insertionSort (rowLe col) rows) = _
    exact (List.sorted_insertionSort (rowLe col) rows).insertionSort_eq
  | true =>
    show (List.insertionSort (rowLe col)
        ((List.insertionSort (rowLe col) rows.reverse).reverse).reverse).reverse = _
    rw [List.reverse_reverse]
    rw [(List.sorted_insertionSort (rowLe col) rows.reverse).insertionSort_eq]
    rfl

/-- Claim C8 counterexample: after clicking `Id` then `Name`, the stored
direction for `Id` is already descending, so the next click on `Id` — a
different column than the previous click — does not reset to ascending; and
clicking `Name` twice in a row leaves the rows in descending order, not the
original ascending order. -/
theorem c8_counterexample :
    revFor (clicksRun initSortState [[("x").data, ("y").data]]
        [("Id").data, ("Name").data]).1 (("Id").data) = true ∧
    (clicksRun initSortState [[("b").data], [("a").data]]
        [("Name").data, ("Name").data]).2 ≠
      sort_tree (("Name").data) false [[("b").data], [("a").data]] := by
  refine ⟨by decide, by decide⟩

/-- Claim C8 (amended): clicking the column of the previous click flips that
column's stored direction; a click on a column with no stored direction sorts
ascending; clicking the same column twice in a row from the initial state
yields the descending sort of the ascending sort (not the original order);
and sorting by the same column and direction is idempotent on an
already-sorted collection. -/
theorem c8_sort_toggle (st : SortState) (col : Str) (rows rows2 : List RowVals)
    (rev : Bool) :
    (revFor (on_sort st col rows).1 col = ! revFor st col) ∧
    (pyDictGet st.sortReverseByCol col = none →
      (on_sort st col rows).2 = sort_tree col false rows) ∧
    ((clicksRun initSortState rows [col, col]).2 =
      sort_tree col true (sort_tree col false rows)) ∧
    (sort_tree col rev (sort_tree col rev rows2) = sort_tree col rev rows2) := by
  refine ⟨?_, ?_, ?_, sort_tree_idem col rev rows2⟩
  · simp [on_sort, revFor, pyDictGet_set]
  · intro h
    simp [on_sort, revFor, h]
  · simp [clicksRun, on_sort, revFor, initSortState, pyDictGet, pyDictSet, List.find?]

/-- Claim C8 witness: a first click on `Name` sorts ascending. -/
theorem c8_witness :
    pyDictGet initSortState.sortReverseByCol (("Name").data) = none ∧
    (on_sort initSortState (("Name").data) [[("b").data], [("a").data]]).2 =
      sort_tree (("Name").data) false [[("b").data], [("a").data]] :=
  ⟨by decide,
    (c8_sort_toggle initSortState (("Name").data) [[("b").data], [("a").data]] [] false).2.1
      (by decide)⟩
